import Mathlib

/-- Model of a Python/JSON value as it occurs in MISP API responses.
`eventObj` models a pymisp object exposing an `attributes` collection;
its field holds the dictionaries produced by each element's `to_dict()`. -/
inductive PyVal : Type where
  | str (s : String)
  | int (n : Int)
  | bool (b : Bool)
  | pyNone
  | list (xs : List PyVal)
  | dict (kvs : List (String × PyVal))
  | eventObj (attrs : List PyVal)

mutual
/-- Decidable structural equality on values. -/
def pyDecEq : (a b : PyVal) → Decidable (a = b)
  | .str a, .str b =>
      if h : a = b then .isTrue (by rw [h]) else .isFalse (by simp [h])
  | .int a, .int b =>
      if h : a = b then .isTrue (by rw [h]) else .isFalse (by simp [h])
  | .bool a, .bool b =>
      if h : a = b then .isTrue (by rw [h]) else .isFalse (by simp [h])
  | .pyNone, .pyNone => .isTrue rfl
  | .list xs, .list ys =>
      match pyDecEqList xs ys with
      | .isTrue h => .isTrue (by rw [h])
      | .isFalse h => .isFalse (by simp [h])
  | .dict xs, .dict ys =>
      match pyDecEqKVs xs ys with
      | .isTrue h => .isTrue (by rw [h])
      | .isFalse h => .isFalse (by simp [h])
  | .eventObj xs, .eventObj ys =>
      match pyDecEqList xs ys with
      | .isTrue h => .isTrue (by rw [h])
      | .isFalse h => .isFalse (by simp [h])
  | .str _, .int _ => .isFalse (by simp)
  | .str _, .bool _ => .isFalse (by simp)
  | .str _, .pyNone => .isFalse (by simp)
  | .str _, .list _ => .isFalse (by simp)
  | .str _, .dict _ => .isFalse (by simp)
  | .str _, .eventObj _ => .isFalse (by simp)
  | .int _, .str _ => .isFalse (by simp)
  | .int _, .bool _ => .isFalse (by simp)
  | .int _, .pyNone => .isFalse (by simp)
  | .int _, .list _ => .isFalse (by simp)
  | .int _, .dict _ => .isFalse (by simp)
  | .int _, .eventObj _ => .isFalse (by simp)
  | .bool _, .str _ => .isFalse (by simp)
  | .bool _, .int _ => .isFalse (by simp)
  | .bool _, .pyNone => .isFalse (by simp)
  | .bool _, .list _ => .isFalse (by simp)
  | .bool _, .dict _ => .isFalse (by simp)
  | .bool _, .eventObj _ => .isFalse (by simp)
  | .pyNone, .str _ => .isFalse (by simp)
  | .pyNone, .int _ => .isFalse (by simp)
  | .pyNone, .bool _ => .isFalse (by simp)
  | .pyNone, .list _ => .isFalse (by simp)
  | .pyNone, .dict _ => .isFalse (by simp)
  | .pyNone, .eventObj _ => .isFalse (by simp)
  | .list _, .str _ => .isFalse (by simp)
  | .list _, .int _ => .isFalse (by simp)
  | .list _, .bool _ => .isFalse (by simp)
  | .list _, .pyNone => .isFalse (by simp)
  | .list _, .dict _ => .isFalse (by simp)
  | .list _, .eventObj _ => .isFalse (by simp)
  | .dict _, .str _ => .isFalse (by simp)
  | .dict _, .int _ => .isFalse (by simp)
  | .dict _, .bool _ => .isFalse (by simp)
  | .dict _, .pyNone => .isFalse (by simp)
  | .dict _, .list _ => .isFalse (by simp)
  | .dict _, .eventObj _ => .isFalse (by simp)
  | .eventObj _, .str _ => .isFalse (by simp)
  | .eventObj _, .int _ => .isFalse (by simp)
  | .eventObj _, .bool _ => .isFalse (by simp)
  | .eventObj _, .pyNone => .isFalse (by simp)
  | .eventObj _, .list _ => .isFalse (by simp)
  | .eventObj _, .dict _ => .isFalse (by simp)

/-- Decidable structural equality on value lists. -/
def pyDecEqList : (xs ys : List PyVal) → Decidable (xs = ys)
  | [], [] => .isTrue rfl
  | [], _ :: _ => .isFalse (by simp)
  | _ :: _, [] => .isFalse (by simp)
  | x :: xs, y :: ys =>
      match pyDecEq x y with
      | .isFalse h => .isFalse (by simp [h])
      | .isTrue h1 =>
          match pyDecEqList xs ys with
          | .isTrue h2 => .isTrue (by rw [h1, h2])
          | .isFalse h2 => .isFalse (by simp [h2])

/-- Decidable structural equality on dictionary entry lists. -/
def pyDecEqKVs : (xs ys : List (String × PyVal)) → Decidable (xs = ys)
  | [], [] => .isTrue rfl
  | [], _ :: _ => .isFalse (by simp)
  | _ :: _, [] => .isFalse (by simp)
  | (k1, v1) :: xs, (k2, v2) :: ys =>
      if h : k1 = k2 then
        match pyDecEq v1 v2 with
        | .isFalse hv => .isFalse (by simp [hv])
        | .isTrue hv =>
            match pyDecEqKVs xs ys with
            | .isTrue h2 => .isTrue (by rw [h, hv, h2])
            | .isFalse h2 => .isFalse (by simp [h2])
      else .isFalse (by simp [h])
end

instance : DecidableEq PyVal := pyDecEq


instance {ε α : Type} [DecidableEq ε] [DecidableEq α] : DecidableEq (Except ε α)
  | .ok a, .ok b => decidable_of_iff (a = b) (by simp)
  | .error a, .error b => decidable_of_iff (a = b) (by simp)
  | .ok _, .error _ => Decidable.isFalse (by simp)
  | .error _, .ok _ => Decidable.isFalse (by simp)

/-- A Python dictionary with string keys, in insertion order. -/
abbrev PyDict := List (String × PyVal)

/-- Python `d.get(k)` / `d[k]` lookup: value of the key, if present. -/
def dictLookup (k : String) : PyDict → Option PyVal
  | [] => Option.none
  | (k2, v) :: rest => if k2 = k then some v else dictLookup k rest

/-- Python `d[k] = v`: update the existing entry or append a new one. -/
def dictSet (d : PyDict) (k : String) (v : PyVal) : PyDict :=
  match d with
  | [] => [(k, v)]
  | (k2, v2) :: rest => if k2 = k then (k, v) :: rest else (k2, v2) :: dictSet rest k v

/-- Python truthiness of a value. -/
def pyTruthy : PyVal → Bool
  | .str s => s != ""
  | .int n => n != 0
  | .bool b => b
  | .pyNone => false
  | .list xs => !xs.isEmpty
  | .dict kvs => !kvs.isEmpty
  | .eventObj _ => true

mutual
/-- Python `repr` of a value (as used inside container display). -/
def pyRepr : PyVal → String
  | .str s => "'" ++ s ++ "'"
  | .int n => toString n
  | .bool b => if b then "True" else "False"
  | .pyNone => "None"
  | .list xs => "[" ++ pyReprList xs ++ "]"
  | .dict kvs => "\x7b" ++ pyReprKVs kvs ++ "\x7d"
  | .eventObj _ => "<MISPEvent>"

/-- Comma-separated reprs of a list's elements. -/
def pyReprList : List PyVal → String
  | [] => ""
  | [x] => pyRepr x
  | x :: y :: rest => pyRepr x ++ ", " ++ pyReprList (y :: rest)

/-- Comma-separated reprs of a dict's entries. -/
def pyReprKVs : List (String × PyVal) → String
  | [] => ""
  | [(k, v)] => "'" ++ k ++ "': " ++ pyRepr v
  | (k, v) :: e :: rest => "'" ++ k ++ "': " ++ pyRepr v ++ ", " ++ pyReprKVs (e :: rest)
end

/-- Python `str` of a value: identity on strings, `repr` rendering otherwise. -/
def pyStr : PyVal → String
  | .str s => s
  | v => pyRepr v

/-- The allow-listed source fields kept by normalization
(OUTPUT_FIELDS in misp_to_json.py line 19). -/
def OUTPUT_FIELDS : List String :=
  ["value", "type", "timestamp", "category", "comment", "Tag", "Event"]

/-- Python `tag.get('name', str(tag))`: raises AttributeError when `tag`
is not a dictionary (misp_to_json.py line 111). -/
def tagName (tag : PyVal) : Except String PyVal :=
  match tag with
  | .dict kvs => .ok ((dictLookup "name" kvs).getD (.str (pyStr tag)))
  | _ => .error "AttributeError: object has no attribute get"

/-- The list comprehension over a tag list, first error wins. -/
def tagNames : List PyVal → Except String (List PyVal)
  | [] => .ok []
  | t :: rest =>
      match tagName t with
      | .error e => .error e
      | .ok n =>
          match tagNames rest with
          | .error e => .error e
          | .ok ns => .ok (n :: ns)

/-- Coercion of join items: Python `str.join` raises TypeError on a
non-string item. -/
def asStrs : List PyVal → Except String (List String)
  | [] => .ok []
  | .str s :: rest =>
      match asStrs rest with
      | .error e => .error e
      | .ok ss => .ok (s :: ss)
  | _ :: _ => .error "TypeError: sequence item in join is not a str"

/-- Python `sep.join(items)`. -/
def strJoin (sep : String) (items : List PyVal) : Except String String :=
  match asStrs items with
  | .error e => .error e
  | .ok ss => .ok (String.intercalate sep ss)

/-- Whether a value is a Python dictionary (`isinstance(v, dict)`). -/
def isDict : PyVal → Bool
  | .dict _ => true
  | _ => false

/-- Normalization of the `Tag` field (misp_to_json.py lines 107-115):
a list whose first element is a dict is handled as a list of dicts; any
other list is stringified elementwise and pipe-joined; a non-list is
stringified, or becomes the empty string when falsy. -/
def processTag (v : PyVal) : Except String PyVal :=
  match v with
  | .list vs =>
      match vs with
      | [] => .ok (.str "")
      | v0 :: rest =>
          if isDict v0 then
            match tagNames (v0 :: rest) with
            | .error e => .error e
            | .ok ns =>
                match strJoin "|" ns with
                | .error e => .error e
                | .ok s => .ok (.str s)
          else
            .ok (.str (String.intercalate "|" ((v0 :: rest).map pyStr)))
  | v => .ok (.str (if pyTruthy v then pyStr v else ""))

/-- Normalization of the `Event` field (misp_to_json.py lines 116-121):
a dict yields its `info` entry, falling back to the dict's string form;
a non-dict is stringified, or becomes the empty string when falsy. -/
def processEvent (v : PyVal) : PyVal :=
  match v with
  | .dict kvs => (dictLookup "info" kvs).getD (.str (pyStr (.dict kvs)))
  | v => .str (if pyTruthy v then pyStr v else "")

/-- The projection loop body of filter_results (misp_to_json.py lines
102-123): walk the record's entries in order, keep only allow-listed
keys, renaming `Tag` to `tags` and `Event` to `event`. -/
def projectFields (keep : PyDict) : PyDict → Except String PyDict
  | [] => .ok keep
  | (k, v) :: rest =>
      if k ∉ OUTPUT_FIELDS then projectFields keep rest
      else if k = "Tag" then
        match processTag v with
        | .error e => .error e
        | .ok t => projectFields (dictSet keep "tags" t) rest
      else if k = "Event" then
        projectFields (dictSet keep "event" (processEvent v)) rest
      else
        projectFields (dictSet keep k v) rest

/-- Projection of one raw attribute record onto the output schema. -/
def projectIOC (ioc : PyDict) : Except String PyDict :=
  projectFields [] ioc

/-- Python `keep.get('value')` truthiness check (misp_to_json.py line 126). -/
def keepsValue (keep : PyDict) : Bool :=
  pyTruthy ((dictLookup "value" keep).getD .pyNone)

/-- filter_results (misp_to_json.py lines 87-129): project every record
and retain those whose projected `value` is truthy. -/
def filter_results : List PyDict → Except String (List PyDict)
  | [] => .ok []
  | ioc :: rest =>
      match projectIOC ioc with
      | .error e => .error e
      | .ok keep =>
          match filter_results rest with
          | .error e => .error e
          | .ok out => .ok (if keepsValue keep then keep :: out else out)

/-- Attribute extraction from one element of a list-shaped response
(misp_to_json.py lines 68-75): an object exposing `attributes` yields
their dictionary forms; a dict yields its `Attribute` entry, wrapped in
a singleton list when it is not already a list; anything else
contributes nothing. -/
def eventAttrs (ev : PyVal) : List PyVal :=
  match ev with
  | .eventObj attrs => attrs
  | .dict kvs =>
      match dictLookup "Attribute" kvs with
      | some (.list l) => l
      | some a => [a]
      | Option.none => []
  | _ => []

/-- Shape normalization of the remote response (misp_to_json.py lines
62-77): a dict containing `Attribute` yields that entry; a list is
treated as a list of event-like objects and flattened; any other truthy
value is used as-is; a falsy value yields the empty list. -/
def extract_iocs (results : PyVal) : PyVal :=
  match results with
  | .dict kvs =>
      match dictLookup "Attribute" kvs with
      | some a => a
      | Option.none =>
          if pyTruthy (.dict kvs) then .dict kvs else .list []
  | .list events => .list (events.foldl (fun acc ev => acc ++ eventAttrs ev) [])
  | r => if pyTruthy r then r else .list []

/-- get_last24h_iocs (misp_to_json.py lines 38-84), parameterized by the
outcome of `misp.search`. On success the response shape is normalized.
On failure the except block only prints the cause, after which
`return iocs` reads a local that was never assigned, so the function
raises UnboundLocalError and the original cause is lost. -/
def get_last24h_iocs (search : Except String PyVal) : Except String PyVal :=
  match search with
  | .ok results => .ok (extract_iocs results)
  | .error _ =>
      .error "UnboundLocalError: local variable iocs referenced before assignment"

/-- Iteration of the raw result as a list of dictionaries, as
filter_results line 103 requires; every other shape raises in the
source (iterating a non-iterable, or calling `.items()` on a non-dict),
modeled here as a single error value. -/
def iterRecords : PyVal → Except String (List PyDict)
  | .list xs => asDicts xs
  | _ => .error "TypeError: object is not a list of dicts"
where
  asDicts : List PyVal → Except String (List PyDict)
    | [] => .ok []
    | .dict kvs :: rest =>
        match asDicts rest with
        | .error e => .error e
        | .ok ds => .ok (kvs :: ds)
    | _ :: _ => .error "AttributeError: object has no attribute items"

/-- get_recent_iocs (misp_mcp_server.py lines 27-47): fetch, short-circuit
a falsy raw result to the empty list, otherwise filter; any exception is
re-raised with the prefix `Failed to retrieve IOCs: `. -/
def get_recent_iocs (search : Except String PyVal) : Except String (List PyDict) :=
  match get_last24h_iocs search with
  | .error e => .error ("Failed to retrieve IOCs: " ++ e)
  | .ok raw =>
      if !pyTruthy raw then .ok []
      else
        match iterRecords raw with
        | .error e => .error ("Failed to retrieve IOCs: " ++ e)
        | .ok iocs =>
            match filter_results iocs with
            | .error e => .error ("Failed to retrieve IOCs: " ++ e)
            | .ok out => .ok out

/-- Python `ioc.get('type', 'unknown')` (misp_mcp_server.py line 71). -/
def iocType (ioc : PyDict) : PyVal :=
  (dictLookup "type" ioc).getD (.str "unknown")

/-- One update of the running per-type counter
(misp_mcp_server.py line 72), preserving first-seen key order. -/
def bumpCount (t : PyVal) : List (PyVal × Nat) → List (PyVal × Nat)
  | [] => [(t, 1)]
  | (k, n) :: rest => if k = t then (k, n + 1) :: rest else (k, n) :: bumpCount t rest

/-- The per-type counting loop (misp_mcp_server.py lines 69-72). -/
def typeCounts (iocs : List PyDict) : List (PyVal × Nat) :=
  iocs.foldl (fun acc ioc => bumpCount (iocType ioc) acc) []

/-- Projection of one record for the sample list
(misp_mcp_server.py lines 76-81). -/
def sampleIOC (ioc : PyDict) : PyDict :=
  [("type", iocType ioc),
   ("value", (dictLookup "value" ioc).getD (.str "N/A")),
   ("event", (dictLookup "event" ioc).getD (.str ""))]

/-- The summary object returned by get_ioc_summary; `sample_iocs` is
absent (`Option.none`) in the empty-input branch, matching the source
dict that omits the key. -/
structure IOCSummary where
  total_count : Nat
  type_counts : List (PyVal × Nat)
  sample_iocs : Option (List PyDict)
  message : String
deriving DecidableEq

/-- The summary computation of get_ioc_summary
(misp_mcp_server.py lines 61-88), as a function of the filtered list. -/
def ioc_summary (iocs : List PyDict) : IOCSummary :=
  if iocs.isEmpty then
    { total_count := 0, type_counts := [], sample_iocs := Option.none,
      message := "No IOCs found in last 24 hours" }
  else
    { total_count := iocs.length,
      type_counts := typeCounts iocs,
      sample_iocs := some ((iocs.take 5).map sampleIOC),
      message := "Found " ++ toString iocs.length ++ " IOCs in last 24 hours" }

/-- get_ioc_summary (misp_mcp_server.py lines 50-91): summary of the
fetched and filtered records, re-raising failures with its own prefix. -/
def get_ioc_summary (search : Except String PyVal) : Except String IOCSummary :=
  match get_recent_iocs search with
  | .error e => .error ("Failed to get IOC summary: " ++ e)
  | .ok iocs => .ok (ioc_summary iocs)

/-- A JSON document, the shape json.dump writes and json.load reads. -/
inductive Json : Type where
  | str (s : String)
  | int (n : Int)
  | bool (b : Bool)
  | null
  | arr (xs : List Json)
  | obj (kvs : List (String × Json))

mutual
/-- Serialization by `json.dump(indent=2, default=str)`: JSON-native
values map to themselves; a non-serializable object is replaced by its
string form via the `default=str` hook. -/
def pyDump : PyVal → Json
  | .str s => .str s
  | .int n => .int n
  | .bool b => .bool b
  | .pyNone => .null
  | .list xs => .arr (pyDumpList xs)
  | .dict kvs => .obj (pyDumpKVs kvs)
  | .eventObj a => .str (pyStr (.eventObj a))

/-- Elementwise serialization of a list. -/
def pyDumpList : List PyVal → List Json
  | [] => []
  | x :: xs => pyDump x :: pyDumpList xs

/-- Entrywise serialization of a dict. -/
def pyDumpKVs : List (String × PyVal) → List (String × Json)
  | [] => []
  | (k, v) :: rest => (k, pyDump v) :: pyDumpKVs rest
end

mutual
/-- Deserialization by `json.load`. -/
def pyLoad : Json → PyVal
  | .str s => .str s
  | .int n => .int n
  | .bool b => .bool b
  | .null => .pyNone
  | .arr xs => .list (pyLoadList xs)
  | .obj kvs => .dict (pyLoadKVs kvs)

/-- Elementwise deserialization of an array. -/
def pyLoadList : List Json → List PyVal
  | [] => []
  | x :: xs => pyLoad x :: pyLoadList xs

/-- Entrywise deserialization of an object. -/
def pyLoadKVs : List (String × Json) → List (String × PyVal)
  | [] => []
  | (k, v) :: rest => (k, pyLoad v) :: pyLoadKVs rest
end

mutual
/-- Whether a value lies in the JSON-representable fragment, so that
`default=str` is never invoked on it. -/
def jsonClean : PyVal → Bool
  | .str _ => true
  | .int _ => true
  | .bool _ => true
  | .pyNone => true
  | .list xs => jsonCleanList xs
  | .dict kvs => jsonCleanKVs kvs
  | .eventObj _ => false

/-- Cleanliness of every list element. -/
def jsonCleanList : List PyVal → Bool
  | [] => true
  | x :: xs => jsonClean x && jsonCleanList xs

/-- Cleanliness of every dict value. -/
def jsonCleanKVs : List (String × PyVal) → Bool
  | [] => true
  | (_, v) :: rest => jsonClean v && jsonCleanKVs rest
end

/-- The outcome of save_iocs_to_file: the returned status dict, with
`Option.none` modeling absent keys, plus the JSON document written to
disk (`Option.none` when no file is created). -/
structure SaveResult where
  status : String
  message : String
  filename : Option String
  count : Option Nat
  file : Option Json

/-- save_iocs_to_file (misp_mcp_server.py lines 120-161), parameterized
by the search outcome, the caller-supplied filename and the
timestamp-generated fallback name. -/
def save_iocs_to_file (search : Except String PyVal)
    (filename : Option String) (autoname : String) : SaveResult :=
  match get_recent_iocs search with
  | .error e =>
      { status := "error", message := "Failed to save IOCs: " ++ e,
        filename := Option.none, count := Option.none, file := Option.none }
  | .ok iocs =>
      if iocs.isEmpty then
        { status := "error", message := "No IOCs found to save",
          filename := Option.none, count := Option.none, file := Option.none }
      else
        let fn := match filename with
          | some f => if f != "" then f else autoname
          | Option.none => autoname
        { status := "success",
          message := "Saved " ++ toString iocs.length ++ " IOCs to " ++ fn,
          filename := some fn,
          count := some iocs.length,
          file := some (pyDump (.list (iocs.map PyVal.dict))) }

/-- The key under which an allow-listed source field is stored by the
projection: `Tag` becomes `tags`, `Event` becomes `event`, everything
else is copied under its own name. -/
def keyImage (k : String) : String :=
  if k = "Tag" then "tags" else if k = "Event" then "event" else k

/-- The value transformation the projection applies to an allow-listed
field. -/
def fieldTransform (k : String) (v : PyVal) : Except String PyVal :=
  if k = "Tag" then processTag v
  else if k = "Event" then .ok (processEvent v)
  else .ok v

/-- Tag values on which the source projection cannot raise: any
non-list, any list not headed by a dict, and any list of dicts whose
`name` entries, where present, are strings. -/
def tagSafe : PyVal → Bool
  | .list (v0 :: rest) =>
      if isDict v0 then
        (v0 :: rest).all fun t =>
          match t with
          | .dict kvs =>
              match dictLookup "name" kvs with
              | some (.str _) => true
              | some _ => false
              | Option.none => true
          | _ => false
      else true
  | _ => true

/-- Lookup in a counter association list. -/
def cLookup (t : PyVal) : List (PyVal × Nat) → Option Nat
  | [] => Option.none
  | (k, n) :: rest => if k = t then some n else cLookup t rest

theorem dictLookup_dictSet_self (d : PyDict) (k : String) (v : PyVal) :
    dictLookup k (dictSet d k v) = some v := by
  induction d with
  | nil => simp [dictSet, dictLookup]
  | cons p rest ih =>
      obtain ⟨k2, v2⟩ := p
      by_cases h : k2 = k
      · subst h
        simp [dictSet, dictLookup]
      · simp [dictSet, dictLookup, h, ih]

theorem dictLookup_dictSet_ne (d : PyDict) (k k2 : String) (v : PyVal) (h : k ≠ k2) :
    dictLookup k2 (dictSet d k v) = dictLookup k2 d := by
  induction d with
  | nil => simp [dictSet, dictLookup, h]
  | cons p rest ih =>
      obtain ⟨k3, v3⟩ := p
      by_cases h3 : k3 = k
      · subst h3
        simp [dictSet, dictLookup, h]
      · simp [dictSet, dictLookup, h3, ih]

theorem dictLookup_dictSet_isSome (d : PyDict) (k k2 : String) (v : PyVal)
    (h : (dictLookup k2 d).isSome) : (dictLookup k2 (dictSet d k v)).isSome := by
  by_cases hk : k = k2
  · subst hk
    simp [dictLookup_dictSet_self]
  · rwa [dictLookup_dictSet_ne _ _ _ _ hk]

mutual
theorem pyLoad_pyDump : ∀ v : PyVal, jsonClean v = true → pyLoad (pyDump v) = v
  | .str _, _ => rfl
  | .int _, _ => rfl
  | .bool _, _ => rfl
  | .pyNone, _ => rfl
  | .list xs, h => by
      simp [pyDump, pyLoad, pyLoadList_pyDumpList xs (by simpa [jsonClean] using h)]
  | .dict kvs, h => by
      simp [pyDump, pyLoad, pyLoadKVs_pyDumpKVs kvs (by simpa [jsonClean] using h)]
  | .eventObj a, h => by simp [jsonClean] at h

theorem pyLoadList_pyDumpList :
    ∀ xs : List PyVal, jsonCleanList xs = true → pyLoadList (pyDumpList xs) = xs
  | [], _ => rfl
  | x :: xs, h => by
      simp [jsonCleanList] at h
      simp [pyDumpList, pyLoadList, pyLoad_pyDump x h.1, pyLoadList_pyDumpList xs h.2]

theorem pyLoadKVs_pyDumpKVs :
    ∀ kvs : List (String × PyVal), jsonCleanKVs kvs = true → pyLoadKVs (pyDumpKVs kvs) = kvs
  | [], _ => rfl
  | (k, v) :: rest, h => by
      simp [jsonCleanKVs] at h
      simp [pyDumpKVs, pyLoadKVs, pyLoad_pyDump v h.1, pyLoadKVs_pyDumpKVs rest h.2]
end

theorem projectFields_cons_eq (keep : PyDict) (k : String) (v : PyVal) (rest : PyDict) :
    projectFields keep ((k, v) :: rest) =
      if k ∈ OUTPUT_FIELDS then
        if k = "Tag" then
          match processTag v with
          | .error e => .error e
          | .ok t => projectFields (dictSet keep "tags" t) rest
        else if k = "Event" then projectFields (dictSet keep "event" (processEvent v)) rest
        else projectFields (dictSet keep k v) rest
      else projectFields keep rest := by
  simp only [projectFields]
  by_cases hmem : k ∈ OUTPUT_FIELDS <;> simp [hmem]

theorem projectFields_cons_skip_inv {keep rest k2} {k : String} {v : PyVal}
    (hmem : k ∉ OUTPUT_FIELDS)
    (h : projectFields keep ((k, v) :: rest) = .ok k2) :
    projectFields keep rest = .ok k2 := by
  rw [projectFields_cons_eq, if_neg hmem] at h
  exact h

theorem projectFields_cons_tag_inv {keep rest k2} {v : PyVal}
    (h : projectFields keep (("Tag", v) :: rest) = .ok k2) :
    ∃ t, processTag v = .ok t ∧ projectFields (dictSet keep "tags" t) rest = .ok k2 := by
  rw [projectFields_cons_eq,
    if_pos (by decide : ("Tag" : String) ∈ OUTPUT_FIELDS), if_pos rfl] at h
  cases hpt : processTag v with
  | error e => rw [hpt] at h; exact absurd h (by simp)
  | ok t => rw [hpt] at h; exact ⟨t, rfl, h⟩

theorem projectFields_cons_event_inv {keep rest k2} {v : PyVal}
    (h : projectFields keep (("Event", v) :: rest) = .ok k2) :
    projectFields (dictSet keep "event" (processEvent v)) rest = .ok k2 := by
  rw [projectFields_cons_eq,
    if_pos (by decide : ("Event" : String) ∈ OUTPUT_FIELDS),
    if_neg (by decide : ¬("Event" : String) = "Tag"), if_pos rfl] at h
  exact h

theorem projectFields_cons_plain_inv {keep rest k2} {k : String} {v : PyVal}
    (hmem : k ∈ OUTPUT_FIELDS) (ht : k ≠ "Tag") (he : k ≠ "Event")
    (h : projectFields keep ((k, v) :: rest) = .ok k2) :
    projectFields (dictSet keep k v) rest = .ok k2 := by
  rw [projectFields_cons_eq, if_pos hmem, if_neg ht, if_neg he] at h
  exact h

theorem projectFields_stable (key : String) (ioc : PyDict) :
    ∀ keep k2, projectFields keep ioc = Except.ok k2 →
      (∀ p ∈ ioc, p.1 ∈ OUTPUT_FIELDS → keyImage p.1 ≠ key) →
      dictLookup key k2 = dictLookup key keep := by
  induction ioc with
  | nil =>
      intro keep k2 h _
      simp only [projectFields] at h
      cases h
      rfl
  | cons p rest ih =>
      obtain ⟨k, v⟩ := p
      intro keep k2 h hk
      have hkr : ∀ p ∈ rest, p.1 ∈ OUTPUT_FIELDS → keyImage p.1 ≠ key :=
        fun p hp => hk p (List.mem_cons_of_mem _ hp)
      by_cases hmem : k ∈ OUTPUT_FIELDS
      · have hkne : keyImage k ≠ key := hk (k, v) (List.mem_cons_self _ _) hmem
        by_cases htag : k = "Tag"
        · subst htag
          obtain ⟨t, _, h2⟩ := projectFields_cons_tag_inv h
          rw [ih _ _ h2 hkr, dictLookup_dictSet_ne]
          simpa [keyImage] using hkne
        · by_cases hev : k = "Event"
          · subst hev
            have h2 := projectFields_cons_event_inv h
            rw [ih _ _ h2 hkr, dictLookup_dictSet_ne]
            simpa [keyImage] using hkne
          · have h2 := projectFields_cons_plain_inv hmem htag hev h
            rw [ih _ _ h2 hkr, dictLookup_dictSet_ne]
            simpa [keyImage, htag, hev] using hkne
      · exact ih _ _ (projectFields_cons_skip_inv hmem h) hkr

theorem keyImage_inj (k k0 : String) (hk : k ∈ OUTPUT_FIELDS) (hk0 : k0 ∈ OUTPUT_FIELDS) :
    keyImage k = keyImage k0 → k = k0 := by
  fin_cases hk <;> fin_cases hk0 <;> simp_all [keyImage]

theorem projectFields_field (k0 : String) (hk0 : k0 ∈ OUTPUT_FIELDS) (ioc : PyDict) :
    ∀ keep k2 v, (k0, v) ∈ ioc → (ioc.map Prod.fst).Nodup →
      projectFields keep ioc = Except.ok k2 →
      ∃ t, fieldTransform k0 v = Except.ok t ∧ dictLookup (keyImage k0) k2 = some t := by
  induction ioc with
  | nil => intro keep k2 v hv _ _; cases hv
  | cons p rest ih =>
      obtain ⟨k, w⟩ := p
      intro keep k2 v hv hnd h
      rw [List.map_cons, List.nodup_cons] at hnd
      obtain ⟨hknotin, hndr⟩ := hnd
      rcases List.mem_cons.mp hv with heq | htail
      · obtain ⟨hkk, hww⟩ := Prod.mk.inj heq
        subst hkk
        subst hww
        have hstable : ∀ p ∈ rest, p.1 ∈ OUTPUT_FIELDS → keyImage p.1 ≠ keyImage k0 := by
          intro p hp hpo hpe
          have h1 : p.1 = k0 := keyImage_inj p.1 k0 hpo hk0 hpe
          have h2 : p.1 ∈ List.map Prod.fst rest := List.mem_map_of_mem Prod.fst hp
          rw [h1] at h2
          exact hknotin h2
        by_cases htag : k0 = "Tag"
        · subst htag
          obtain ⟨t, hpt, h2⟩ := projectFields_cons_tag_inv h
          refine ⟨t, by simpa [fieldTransform] using hpt, ?_⟩
          rw [projectFields_stable _ _ _ _ h2 (by simpa [keyImage] using hstable)]
          simp [keyImage, dictLookup_dictSet_self]
        · by_cases hev : k0 = "Event"
          · subst hev
            have h2 := projectFields_cons_event_inv h
            refine ⟨processEvent v, by simp [fieldTransform], ?_⟩
            rw [projectFields_stable _ _ _ _ h2 (by simpa [keyImage] using hstable)]
            simp [keyImage, dictLookup_dictSet_self]
          · have h2 := projectFields_cons_plain_inv hk0 htag hev h
            refine ⟨v, by simp [fieldTransform, htag, hev], ?_⟩
            rw [projectFields_stable _ _ _ _ h2
              (by simpa [keyImage, htag, hev] using hstable)]
            simp [keyImage, htag, hev, dictLookup_dictSet_self]
      · by_cases hmem : k ∈ OUTPUT_FIELDS
        · by_cases htag : k = "Tag"
          · subst htag
            obtain ⟨t, _, h2⟩ := projectFields_cons_tag_inv h
            exact ih _ _ _ htail hndr h2
          · by_cases hev : k = "Event"
            · subst hev
              exact ih _ _ _ htail hndr (projectFields_cons_event_inv h)
            · exact ih _ _ _ htail hndr (projectFields_cons_plain_inv hmem htag hev h)
        · exact ih _ _ _ htail hndr (projectFields_cons_skip_inv hmem h)

theorem dictLookup_mem {k : String} {d : PyDict} {v : PyVal}
    (h : dictLookup k d = some v) : (k, v) ∈ d := by
  induction d with
  | nil => simp [dictLookup] at h
  | cons p rest ih =>
      obtain ⟨k2, v2⟩ := p
      by_cases h2 : k2 = k
      · subst h2
        simp [dictLookup] at h
        subst h
        exact List.mem_cons_self _ _
      · simp [dictLookup, h2] at h
        exact List.mem_cons_of_mem _ (ih h)

theorem dictLookup_eq_none {k : String} {d : PyDict} :
    dictLookup k d = Option.none ↔ k ∉ d.map Prod.fst := by
  induction d with
  | nil => simp [dictLookup]
  | cons p rest ih =>
      obtain ⟨k2, v2⟩ := p
      by_cases h2 : k2 = k
      · subst h2
        simp [dictLookup]
      · simp [dictLookup, h2, ih, Ne.symm h2]

theorem mem_of_mem_keys {k : String} {d : PyDict}
    (h : k ∈ d.map Prod.fst) : ∃ v, (k, v) ∈ d := by
  rw [List.mem_map] at h
  obtain ⟨⟨k2, v⟩, hp, hk⟩ := h
  exact ⟨v, hk ▸ hp⟩

theorem filter_results_cons_inv {ioc : PyDict} {rest : List PyDict} {out : List PyDict}
    (h : filter_results (ioc :: rest) = Except.ok out) :
    ∃ keep out2, projectIOC ioc = Except.ok keep ∧ filter_results rest = Except.ok out2 ∧
      out = if keepsValue keep then keep :: out2 else out2 := by
  simp only [filter_results] at h
  cases hp : projectIOC ioc with
  | error e => rw [hp] at h; exact absurd h (by simp)
  | ok keep =>
      rw [hp] at h
      cases hf : filter_results rest with
      | error e => rw [hf] at h; exact absurd h (by simp)
      | ok out2 =>
          rw [hf] at h
          exact ⟨keep, out2, rfl, rfl, (Except.ok.inj h).symm⟩

theorem filter_results_mem (iocs : List PyDict) :
    ∀ out, filter_results iocs = Except.ok out →
      ∀ r ∈ out, ∃ ioc ∈ iocs, projectIOC ioc = Except.ok r ∧ keepsValue r = true := by
  induction iocs with
  | nil =>
      intro out h r hr
      simp only [filter_results] at h
      cases h
      cases hr
  | cons ioc rest ih =>
      intro out h r hr
      obtain ⟨keep, out2, hp, hf, hout⟩ := filter_results_cons_inv h
      subst hout
      by_cases hv : keepsValue keep
      · rw [if_pos hv] at hr
        rcases List.mem_cons.mp hr with heq | htail
        · subst heq
          exact ⟨ioc, List.mem_cons_self _ _, hp, hv⟩
        · obtain ⟨i2, hi2, hpi, hk⟩ := ih out2 hf r htail
          exact ⟨i2, List.mem_cons_of_mem _ hi2, hpi, hk⟩
      · rw [if_neg hv] at hr
        obtain ⟨i2, hi2, hpi, hk⟩ := ih out2 hf r hr
        exact ⟨i2, List.mem_cons_of_mem _ hi2, hpi, hk⟩

theorem projectIOC_absent (k0 : String) (hk0 : k0 ∈ OUTPUT_FIELDS)
    {ioc k2 : PyDict} (hno : k0 ∉ ioc.map Prod.fst)
    (h : projectIOC ioc = Except.ok k2) :
    dictLookup (keyImage k0) k2 = Option.none := by
  rw [projectFields_stable (keyImage k0) ioc [] k2 h ?_]
  · rfl
  · intro p hp hpo hpe
    have h1 : p.1 = k0 := keyImage_inj p.1 k0 hpo hk0 hpe
    have h2 : p.1 ∈ List.map Prod.fst ioc := List.mem_map_of_mem Prod.fst hp
    rw [h1] at h2
    exact hno h2

theorem projectIOC_present (k0 : String) (hk0 : k0 ∈ OUTPUT_FIELDS)
    {ioc k2 : PyDict} (hnd : (ioc.map Prod.fst).Nodup) (hin : k0 ∈ ioc.map Prod.fst)
    (h : projectIOC ioc = Except.ok k2) :
    ∃ t, dictLookup (keyImage k0) k2 = some t := by
  obtain ⟨v, hv⟩ := mem_of_mem_keys hin
  obtain ⟨t, _, ht⟩ := projectFields_field k0 hk0 ioc [] k2 v hv hnd h
  exact ⟨t, ht⟩

theorem projectIOC_plain (k0 : String) (hk0 : k0 ∈ OUTPUT_FIELDS)
    (ht : k0 ≠ "Tag") (he : k0 ≠ "Event")
    {ioc k2 : PyDict} (hnd : (ioc.map Prod.fst).Nodup)
    (h : projectIOC ioc = Except.ok k2) :
    dictLookup k0 k2 = dictLookup k0 ioc := by
  have hki : keyImage k0 = k0 := by simp [keyImage, ht, he]
  cases hl : dictLookup k0 ioc with
  | none =>
      rw [← hki]
      exact projectIOC_absent k0 hk0 (dictLookup_eq_none.mp hl) h
  | some v =>
      obtain ⟨t, htr, hlk⟩ :=
        projectFields_field k0 hk0 ioc [] k2 v (dictLookup_mem hl) hnd h
      rw [← hki, hlk]
      simp [fieldTransform, ht, he] at htr
      rw [htr]

theorem processTag_isStr : ∀ v t, processTag v = Except.ok t → ∃ s, t = PyVal.str s := by
  intro v t h
  match v with
  | .list [] =>
      simp only [processTag] at h
      exact ⟨"", (Except.ok.inj h).symm⟩
  | .list (v0 :: rest) =>
      by_cases hd : isDict v0
      · simp only [processTag, if_pos hd] at h
        cases htn : tagNames (v0 :: rest) with
        | error e => rw [htn] at h; exact absurd h (by simp)
        | ok ns =>
            simp only [htn] at h
            cases hsj : strJoin "|" ns with
            | error e => simp only [hsj] at h; exact absurd h (by simp)
            | ok s =>
                simp only [hsj] at h
                exact ⟨s, (Except.ok.inj h).symm⟩
      · simp only [processTag, if_neg hd] at h
        exact ⟨_, (Except.ok.inj h).symm⟩
  | .str s => exact ⟨_, (Except.ok.inj h).symm⟩
  | .int n => exact ⟨_, (Except.ok.inj h).symm⟩
  | .bool b => exact ⟨_, (Except.ok.inj h).symm⟩
  | .pyNone => exact ⟨_, (Except.ok.inj h).symm⟩
  | .dict kvs => exact ⟨_, (Except.ok.inj h).symm⟩
  | .eventObj a => exact ⟨_, (Except.ok.inj h).symm⟩

theorem processEvent_cases (v : PyVal) :
    (∃ s, processEvent v = PyVal.str s) ∨
      ∃ kvs, v = PyVal.dict kvs ∧ dictLookup "info" kvs = some (processEvent v) := by
  match v with
  | .dict kvs =>
      cases hl : dictLookup "info" kvs with
      | none => exact Or.inl ⟨pyStr (PyVal.dict kvs), by simp [processEvent, hl]⟩
      | some i => exact Or.inr ⟨kvs, rfl, by simp [processEvent, hl]⟩
  | .str s => exact Or.inl ⟨_, rfl⟩
  | .int n => exact Or.inl ⟨_, rfl⟩
  | .bool b => exact Or.inl ⟨_, rfl⟩
  | .pyNone => exact Or.inl ⟨_, rfl⟩
  | .list xs => exact Or.inl ⟨_, rfl⟩
  | .eventObj a => exact Or.inl ⟨_, rfl⟩

theorem plain_key_ne (k : String) (hmem : k ∈ OUTPUT_FIELDS) (ht : k ≠ "Tag")
    (he : k ≠ "Event") : k ≠ "tags" ∧ k ≠ "event" := by
  fin_cases hmem <;> simp_all

theorem projectFields_tags_str (ioc : PyDict) :
    ∀ keep k2, projectFields keep ioc = Except.ok k2 →
      (∀ t, dictLookup "tags" keep = some t → ∃ s, t = PyVal.str s) →
      ∀ t, dictLookup "tags" k2 = some t → ∃ s, t = PyVal.str s := by
  induction ioc with
  | nil =>
      intro keep k2 h hinv
      simp only [projectFields] at h
      cases h
      exact hinv
  | cons p rest ih =>
      obtain ⟨k, v⟩ := p
      intro keep k2 h hinv
      by_cases hmem : k ∈ OUTPUT_FIELDS
      · by_cases htag : k = "Tag"
        · subst htag
          obtain ⟨t0, hpt, h2⟩ := projectFields_cons_tag_inv h
          refine ih _ _ h2 ?_
          intro t hl
          rw [dictLookup_dictSet_self] at hl
          cases hl
          exact processTag_isStr _ _ hpt
        · by_cases hev : k = "Event"
          · subst hev
            refine ih _ _ (projectFields_cons_event_inv h) ?_
            intro t hl
            rw [dictLookup_dictSet_ne _ _ _ _ (by decide)] at hl
            exact hinv t hl
          · obtain ⟨hnt, _⟩ := plain_key_ne k hmem htag hev
            refine ih _ _ (projectFields_cons_plain_inv hmem htag hev h) ?_
            intro t hl
            rw [dictLookup_dictSet_ne _ _ _ _ hnt] at hl
            exact hinv t hl
      · exact ih _ _ (projectFields_cons_skip_inv hmem h) hinv

theorem projectFields_event_chr (ioc : PyDict) :
    ∀ keep k2, projectFields keep ioc = Except.ok k2 →
      ∀ t, dictLookup "event" k2 = some t →
        dictLookup "event" keep = some t ∨ (∃ s, t = PyVal.str s) ∨
          ∃ kvs, ("Event", PyVal.dict kvs) ∈ ioc ∧ dictLookup "info" kvs = some t := by
  induction ioc with
  | nil =>
      intro keep k2 h t hl
      simp only [projectFields] at h
      cases h
      exact Or.inl hl
  | cons p rest ih =>
      obtain ⟨k, v⟩ := p
      intro keep k2 h t hl
      by_cases hmem : k ∈ OUTPUT_FIELDS
      · by_cases htag : k = "Tag"
        · subst htag
          obtain ⟨t0, _, h2⟩ := projectFields_cons_tag_inv h
          rcases ih _ _ h2 t hl with hk | hs | ⟨kvs, hkv, hi⟩
          · rw [dictLookup_dictSet_ne _ _ _ _ (by decide)] at hk
            exact Or.inl hk
          · exact Or.inr (Or.inl hs)
          · exact Or.inr (Or.inr ⟨kvs, List.mem_cons_of_mem _ hkv, hi⟩)
        · by_cases hev : k = "Event"
          · subst hev
            rcases ih _ _ (projectFields_cons_event_inv h) t hl with hk | hs | ⟨kvs, hkv, hi⟩
            · rw [dictLookup_dictSet_self] at hk
              cases hk
              rcases processEvent_cases v with ⟨s, hs⟩ | ⟨kvs, hv, hi⟩
              · exact Or.inr (Or.inl ⟨s, hs⟩)
              · exact Or.inr (Or.inr ⟨kvs, hv ▸ List.mem_cons_self _ _, hi⟩)
            · exact Or.inr (Or.inl hs)
            · exact Or.inr (Or.inr ⟨kvs, List.mem_cons_of_mem _ hkv, hi⟩)
          · obtain ⟨_, hne⟩ := plain_key_ne k hmem htag hev
            rcases ih _ _ (projectFields_cons_plain_inv hmem htag hev h) t hl with
              hk | hs | ⟨kvs, hkv, hi⟩
            · rw [dictLookup_dictSet_ne _ _ _ _ hne] at hk
              exact Or.inl hk
            · exact Or.inr (Or.inl hs)
            · exact Or.inr (Or.inr ⟨kvs, List.mem_cons_of_mem _ hkv, hi⟩)
      · rcases ih _ _ (projectFields_cons_skip_inv hmem h) t hl with hk | hs | ⟨kvs, hkv, hi⟩
        · exact Or.inl hk
        · exact Or.inr (Or.inl hs)
        · exact Or.inr (Or.inr ⟨kvs, List.mem_cons_of_mem _ hkv, hi⟩)

theorem tagNames_ok (vs : List PyVal)
    (h : ∀ t ∈ vs, ∃ kvs, t = PyVal.dict kvs ∧
      ∀ n, dictLookup "name" kvs = some n → ∃ s, n = PyVal.str s) :
    ∃ ns, tagNames vs = Except.ok ns ∧ ∀ n ∈ ns, ∃ s, n = PyVal.str s := by
  induction vs with
  | nil => exact ⟨[], rfl, by simp⟩
  | cons t rest ih =>
      obtain ⟨kvs, ht, hname⟩ := h t (List.mem_cons_self _ _)
      obtain ⟨ns, hns, hstr⟩ := ih (fun t2 h2 => h t2 (List.mem_cons_of_mem _ h2))
      subst ht
      refine ⟨(dictLookup "name" kvs).getD (.str (pyStr (.dict kvs))) :: ns, ?_, ?_⟩
      · simp only [tagNames, tagName, hns]
      · intro n hn
        rcases List.mem_cons.mp hn with heq | h2
        · subst heq
          cases hl : dictLookup "name" kvs with
          | none => exact ⟨pyStr (.dict kvs), by simp [hl]⟩
          | some n0 =>
              obtain ⟨s, hs⟩ := hname n0 hl
              exact ⟨s, by simp [hl, hs]⟩
        · exact hstr n h2

theorem asStrs_ok (ns : List PyVal) (h : ∀ n ∈ ns, ∃ s, n = PyVal.str s) :
    ∃ ss, asStrs ns = Except.ok ss := by
  induction ns with
  | nil => exact ⟨[], rfl⟩
  | cons n rest ih =>
      obtain ⟨s, hs⟩ := h n (List.mem_cons_self _ _)
      subst hs
      obtain ⟨ss, hss⟩ := ih (fun m hm => h m (List.mem_cons_of_mem _ hm))
      exact ⟨s :: ss, by simp only [asStrs, hss]⟩

theorem processTag_ok (v : PyVal) (h : tagSafe v = true) :
    ∃ t, processTag v = Except.ok t := by
  match v with
  | .list [] => exact ⟨_, rfl⟩
  | .list (v0 :: rest) =>
      by_cases hd : isDict v0
      · simp only [tagSafe, if_pos hd, List.all_eq_true] at h
        have hall : ∀ t ∈ v0 :: rest, ∃ kvs, t = PyVal.dict kvs ∧
            ∀ n, dictLookup "name" kvs = some n → ∃ s, n = PyVal.str s := by
          intro t htm
          have hp := h t htm
          match t with
          | .dict kvs =>
              refine ⟨kvs, rfl, ?_⟩
              intro n hn
              simp only [hn] at hp
              match n with
              | .str s => exact ⟨s, rfl⟩
              | .int _ => simp at hp
              | .bool _ => simp at hp
              | .pyNone => simp at hp
              | .list _ => simp at hp
              | .dict _ => simp at hp
              | .eventObj _ => simp at hp
          | .str _ => exact absurd hp (by simp)
          | .int _ => exact absurd hp (by simp)
          | .bool _ => exact absurd hp (by simp)
          | .pyNone => exact absurd hp (by simp)
          | .list _ => exact absurd hp (by simp)
          | .eventObj _ => exact absurd hp (by simp)
        obtain ⟨ns, hns, hstr⟩ := tagNames_ok (v0 :: rest) hall
        obtain ⟨ss, hss⟩ := asStrs_ok ns hstr
        refine ⟨.str (String.intercalate "|" ss), ?_⟩
        simp only [processTag, if_pos hd, hns, strJoin, hss]
      · refine ⟨.str (String.intercalate "|" ((v0 :: rest).map pyStr)), ?_⟩
        simp only [processTag, if_neg hd]
  | .str s => exact ⟨_, rfl⟩
  | .int n => exact ⟨_, rfl⟩
  | .bool b => exact ⟨_, rfl⟩
  | .pyNone => exact ⟨_, rfl⟩
  | .dict kvs => exact ⟨_, rfl⟩
  | .eventObj a => exact ⟨_, rfl⟩

theorem projectFields_ok (ioc : PyDict) :
    ∀ keep, (∀ v, ("Tag", v) ∈ ioc → tagSafe v = true) →
      ∃ k2, projectFields keep ioc = Except.ok k2 := by
  induction ioc with
  | nil => intro keep _; exact ⟨keep, rfl⟩
  | cons p rest ih =>
      obtain ⟨k, v⟩ := p
      intro keep hsafe
      have hrest : ∀ v2, ("Tag", v2) ∈ rest → tagSafe v2 = true :=
        fun v2 h2 => hsafe v2 (List.mem_cons_of_mem _ h2)
      by_cases hmem : k ∈ OUTPUT_FIELDS
      · by_cases htag : k = "Tag"
        · subst htag
          obtain ⟨t, hpt⟩ := processTag_ok v (hsafe v (List.mem_cons_self _ _))
          obtain ⟨k2, hk2⟩ := ih (dictSet keep "tags" t) hrest
          refine ⟨k2, ?_⟩
          rw [projectFields_cons_eq,
            if_pos (by decide : ("Tag" : String) ∈ OUTPUT_FIELDS), if_pos rfl, hpt]
          exact hk2
        · by_cases hev : k = "Event"
          · subst hev
            obtain ⟨k2, hk2⟩ := ih (dictSet keep "event" (processEvent v)) hrest
            refine ⟨k2, ?_⟩
            rw [projectFields_cons_eq,
              if_pos (by decide : ("Event" : String) ∈ OUTPUT_FIELDS),
              if_neg (by decide : ¬("Event" : String) = "Tag"), if_pos rfl]
            exact hk2
          · obtain ⟨k2, hk2⟩ := ih (dictSet keep k v) hrest
            refine ⟨k2, ?_⟩
            rw [projectFields_cons_eq, if_pos hmem, if_neg htag, if_neg hev]
            exact hk2
      · obtain ⟨k2, hk2⟩ := ih keep hrest
        refine ⟨k2, ?_⟩
        rw [projectFields_cons_eq, if_neg hmem]
        exact hk2

theorem filter_results_ok (iocs : List PyDict)
    (h : ∀ ioc ∈ iocs, ∀ v, ("Tag", v) ∈ ioc → tagSafe v = true) :
    ∃ out, filter_results iocs = Except.ok out := by
  induction iocs with
  | nil => exact ⟨[], rfl⟩
  | cons ioc rest ih =>
      obtain ⟨keep, hk⟩ := projectFields_ok ioc [] (h ioc (List.mem_cons_self _ _))
      obtain ⟨out, hout⟩ := ih (fun i2 h2 => h i2 (List.mem_cons_of_mem _ h2))
      refine ⟨if keepsValue keep then keep :: out else out, ?_⟩
      simp only [filter_results, projectIOC] at hk ⊢
      rw [hk, hout]

theorem cLookup_bumpCount_self (t : PyVal) (acc : List (PyVal × Nat)) :
    cLookup t (bumpCount t acc) = some ((cLookup t acc).getD 0 + 1) := by
  induction acc with
  | nil => simp [bumpCount, cLookup]
  | cons p rest ih =>
      obtain ⟨k, n⟩ := p
      by_cases hk : k = t
      · subst hk
        simp [bumpCount, cLookup]
      · simp [bumpCount, cLookup, hk, ih]

theorem cLookup_bumpCount_ne (t t2 : PyVal) (acc : List (PyVal × Nat)) (h : t2 ≠ t) :
    cLookup t2 (bumpCount t acc) = cLookup t2 acc := by
  induction acc with
  | nil => simp [bumpCount, cLookup, Ne.symm h]
  | cons p rest ih =>
      obtain ⟨k, n⟩ := p
      by_cases hk : k = t
      · subst hk
        simp [bumpCount, cLookup, Ne.symm h]
      · simp [bumpCount, cLookup, hk, ih]

theorem cLookup_foldl_bump (ts : List PyVal) :
    ∀ (acc : List (PyVal × Nat)) (t : PyVal),
      cLookup t (ts.foldl (fun a x => bumpCount x a) acc) =
        if ts.count t = 0 then cLookup t acc
        else some ((cLookup t acc).getD 0 + ts.count t) := by
  induction ts with
  | nil => intro acc t; simp
  | cons x rest ih =>
      intro acc t
      simp only [List.foldl_cons]
      rw [ih]
      by_cases hx : x = t
      · subst hx
        rw [List.count_cons_self, cLookup_bumpCount_self]
        by_cases hc : rest.count x = 0
        · simp [hc]
        · simp only [hc, if_neg (by omega : ¬rest.count x + 1 = 0), if_neg hc]
          simp
          omega
      · rw [cLookup_bumpCount_ne _ _ _ (Ne.symm hx),
          List.count_cons_of_ne (fun he => hx he.symm)]

theorem bumpCount_keys (t : PyVal) (acc : List (PyVal × Nat)) :
    (bumpCount t acc).map Prod.fst =
      if t ∈ acc.map Prod.fst then acc.map Prod.fst else acc.map Prod.fst ++ [t] := by
  induction acc with
  | nil => simp [bumpCount]
  | cons p rest ih =>
      obtain ⟨k, n⟩ := p
      by_cases hk : k = t
      · subst hk
        simp [bumpCount]
      · simp [bumpCount, hk, ih, Ne.symm hk]
        by_cases hm : t ∈ rest.map Prod.fst <;> simp [hm, Ne.symm hk]

theorem bumpCount_keys_nodup (t : PyVal) (acc : List (PyVal × Nat))
    (h : (acc.map Prod.fst).Nodup) : ((bumpCount t acc).map Prod.fst).Nodup := by
  rw [bumpCount_keys]
  by_cases hm : t ∈ acc.map Prod.fst
  · simpa [hm] using h
  · rw [if_neg hm]
    exact List.Nodup.append h (List.nodup_singleton t) (by simpa using hm)

theorem foldl_bump_keys_nodup (ts : List PyVal) :
    ∀ acc, (acc.map Prod.fst).Nodup →
      ((ts.foldl (fun a x => bumpCount x a) acc).map Prod.fst).Nodup := by
  induction ts with
  | nil => intro acc h; simpa using h
  | cons x rest ih =>
      intro acc h
      simp only [List.foldl_cons]
      exact ih _ (bumpCount_keys_nodup x acc h)

theorem mem_counts_iff {acc : List (PyVal × Nat)} (h : (acc.map Prod.fst).Nodup)
    {t : PyVal} {n : Nat} : (t, n) ∈ acc ↔ cLookup t acc = some n := by
  induction acc with
  | nil => simp [cLookup]
  | cons p rest ih =>
      obtain ⟨k, m⟩ := p
      rw [List.map_cons, List.nodup_cons] at h
      obtain ⟨hknotin, hndr⟩ := h
      by_cases hk : k = t
      · subst hk
        simp only [cLookup, if_pos rfl, List.mem_cons]
        constructor
        · rintro (heq | htail)
          · obtain ⟨-, rfl⟩ := Prod.mk.inj heq.symm
            rfl
          · exact absurd (List.mem_map_of_mem Prod.fst htail) hknotin
        · intro hs
          exact Or.inl (by simp [Option.some.inj hs])
      · simp only [cLookup, if_neg hk, List.mem_cons]
        rw [← ih hndr]
        constructor
        · rintro (heq | htail)
          · exact absurd (Prod.mk.inj heq.symm).1 hk
          · exact htail
        · exact Or.inr

theorem typeCounts_mem_iff (iocs : List PyDict) (t : PyVal) (n : Nat) :
    (t, n) ∈ typeCounts iocs ↔
      t ∈ iocs.map iocType ∧ n = (iocs.map iocType).count t := by
  have hfold : typeCounts iocs =
      (iocs.map iocType).foldl (fun a x => bumpCount x a) [] := by
    rw [List.foldl_map]
    rfl
  have hnd : ((typeCounts iocs).map Prod.fst).Nodup := by
    rw [hfold]
    exact foldl_bump_keys_nodup _ [] (by simp)
  rw [mem_counts_iff hnd, hfold, cLookup_foldl_bump]
  by_cases hc : (iocs.map iocType).count t = 0
  · simp [hc, cLookup, List.count_eq_zero.mp hc]
  · have hmem : t ∈ iocs.map iocType := by
      by_contra hnm
      exact hc (List.count_eq_zero.mpr hnm)
    simp only [if_neg hc, cLookup, Option.getD_none, Nat.zero_add, hmem, true_and]
    constructor
    · intro hs
      exact (Option.some.inj hs).symm
    · intro he
      rw [he]

theorem eventAttrs_nil_foldl (l : List PyVal) :
    ∀ acc, (∀ e ∈ l, eventAttrs e = []) →
      l.foldl (fun acc ev => acc ++ eventAttrs ev) acc = acc := by
  induction l with
  | nil => intro acc _; rfl
  | cons e rest ih =>
      intro acc h
      simp only [List.foldl_cons, h e (List.mem_cons_self _ _), List.append_nil]
      exact ih acc (fun e2 h2 => h e2 (List.mem_cons_of_mem _ h2))

/-- C1: every record in the output of filter_results has a truthy `value`,
and every input record whose `value` field is absent, null, or falsy is
excluded from the output: its projection never appears there. -/
theorem C1_filter_results_value (iocs : List PyDict) (out : List PyDict)
    (h : filter_results iocs = Except.ok out) :
    (∀ r ∈ out, pyTruthy ((dictLookup "value" r).getD PyVal.pyNone) = true) ∧
    (∀ ioc ∈ iocs, (ioc.map Prod.fst).Nodup →
      pyTruthy ((dictLookup "value" ioc).getD PyVal.pyNone) = false →
      ∀ k, projectIOC ioc = Except.ok k → k ∉ out) := by
  constructor
  · intro r hr
    obtain ⟨_, _, _, hk⟩ := filter_results_mem iocs out h r hr
    simpa [keepsValue] using hk
  · intro ioc _ hnd hfal k hk hmem
    have hv : dictLookup "value" k = dictLookup "value" ioc :=
      projectIOC_plain "value" (by decide) (by decide) (by decide) hnd hk
    obtain ⟨_, _, _, hkv⟩ := filter_results_mem iocs out h k hmem
    simp [keepsValue, hv, hfal] at hkv

/-- Witness for C1 at a concrete input: one record with a truthy value is
kept, one record without a value is excluded. -/
theorem C1_filter_results_value_witness :
    (∀ r ∈ [[("value", PyVal.str "1.2.3.4")]],
        pyTruthy ((dictLookup "value" r).getD PyVal.pyNone) = true) ∧
    (∀ ioc ∈ [[("value", PyVal.str "1.2.3.4")], [("type", PyVal.str "domain")]],
        (ioc.map Prod.fst).Nodup →
        pyTruthy ((dictLookup "value" ioc).getD PyVal.pyNone) = false →
        ∀ k, projectIOC ioc = Except.ok k → k ∉ [[("value", PyVal.str "1.2.3.4")]]) :=
  C1_filter_results_value
    [[("value", PyVal.str "1.2.3.4")], [("type", PyVal.str "domain")]]
    [[("value", PyVal.str "1.2.3.4")]] (by decide)

/-- C2 counterexample: for the same attribute list L, the response shape
with the `Attribute` key yields L while the bare list yields the empty
sequence, because a bare list is routed through event extraction. -/
theorem C2_counterexample :
    extract_iocs (PyVal.dict [("Attribute",
        PyVal.list [PyVal.dict [("value", PyVal.str "1.2.3.4")]])]) =
      PyVal.list [PyVal.dict [("value", PyVal.str "1.2.3.4")]] ∧
    extract_iocs (PyVal.list [PyVal.dict [("value", PyVal.str "1.2.3.4")]]) =
      PyVal.list [] := by decide

/-- C2 amended: a dict response containing `Attribute` yields that entry;
a bare list is treated as a list of event-like objects, so a bare list of
plain attribute records (dicts without an `Attribute` key) yields the
empty sequence, not the list itself; an absent (None) response yields the
empty sequence. -/
theorem C2_extract_iocs_shapes :
    (∀ kvs a, dictLookup "Attribute" kvs = some a →
      extract_iocs (PyVal.dict kvs) = a) ∧
    (∀ l : List PyVal,
      (∀ e ∈ l, ∃ kvs, e = PyVal.dict kvs ∧ dictLookup "Attribute" kvs = Option.none) →
      extract_iocs (PyVal.list l) = PyVal.list []) ∧
    extract_iocs PyVal.pyNone = PyVal.list [] := by
  refine ⟨?_, ?_, rfl⟩
  · intro kvs a h
    simp [extract_iocs, h]
  · intro l h
    simp only [extract_iocs]
    rw [eventAttrs_nil_foldl l [] ?_]
    intro e he
    obtain ⟨kvs, rfl, hno⟩ := h e he
    simp [eventAttrs, hno]

/-- Witness for C2 amended at concrete inputs. -/
theorem C2_extract_iocs_shapes_witness :
    extract_iocs (PyVal.dict [("Attribute", PyVal.list [PyVal.dict []])]) =
      PyVal.list [PyVal.dict []] ∧
    extract_iocs (PyVal.list [PyVal.dict [("value", PyVal.str "x")]]) = PyVal.list [] :=
  ⟨C2_extract_iocs_shapes.1 _ _ (by decide),
   C2_extract_iocs_shapes.2.1 [PyVal.dict [("value", PyVal.str "x")]]
    (by
      intro e he
      simp only [List.mem_singleton] at he
      subst he
      exact ⟨[("value", PyVal.str "x")], rfl, by decide⟩)⟩

/-- C3: when the remote query fails, get_recent_iocs does surface an
explicit error and never returns a list, but the error text carries the
description of the UnboundLocalError produced by `return iocs` after the
swallowing except block, not the original cause: the cause string `msg`
is dropped for every `msg`. -/
theorem C3_get_recent_iocs_failure (msg : String) :
    get_recent_iocs (Except.error msg) =
      Except.error
        "Failed to retrieve IOCs: UnboundLocalError: local variable iocs referenced before assignment" := by
  rfl

/-- C4 counterexample: a tag list whose first element is a mapping but
whose second element is a plain string makes filter_results raise
(AttributeError on `tag.get`), so the function is not total. -/
theorem C4_counterexample :
    filter_results [[("value", PyVal.str "x"),
      ("Tag", PyVal.list [PyVal.dict [("name", PyVal.str "a")], PyVal.str "plain"])]] =
    Except.error "AttributeError: object has no attribute get" := by decide

/-- C4 amended: filter_results returns a result without raising for every
input whose Tag lists are safe: whenever a Tag list's first element is a
mapping, all its elements are mappings and their `name` entries, where
present, are strings. Malformed or missing fields otherwise degrade to
defaults. -/
theorem C4_filter_results_total (iocs : List PyDict)
    (h : ∀ ioc ∈ iocs, ∀ v, ("Tag", v) ∈ ioc → tagSafe v = true) :
    ∃ out, filter_results iocs = Except.ok out :=
  filter_results_ok iocs h

/-- Witness for C4 amended at a concrete input with a dict-headed tag
list, a malformed Event and a stray field. -/
theorem C4_filter_results_total_witness :
    ∃ out, filter_results [[("value", PyVal.str "x"),
      ("Tag", PyVal.list [PyVal.dict [("name", PyVal.str "a")], PyVal.dict []]),
      ("Event", PyVal.int 0), ("junk", PyVal.pyNone)]] = Except.ok out :=
  C4_filter_results_total _ (by
    intro ioc hioc v hv
    simp only [List.mem_singleton] at hioc
    subst hioc
    simp at hv
    subst hv
    decide)

/-- C5 counterexample: a retained record whose source has no Tag or Event
key has no `tags` or `event` field at all, and a retained record whose
Event mapping carries a non-string `info` gets that raw value as `event`;
so the fields are neither always present nor always strings. -/
theorem C5_counterexample :
    (filter_results [[("value", PyVal.str "x")]] =
        Except.ok [[("value", PyVal.str "x")]] ∧
      dictLookup "tags" [("value", PyVal.str "x")] = Option.none ∧
      dictLookup "event" [("value", PyVal.str "x")] = Option.none) ∧
    (filter_results [[("value", PyVal.str "x"),
        ("Event", PyVal.dict [("info", PyVal.int 7)])]] =
        Except.ok [[("value", PyVal.str "x"), ("event", PyVal.int 7)]] ∧
      dictLookup "event" [("value", PyVal.str "x"), ("event", PyVal.int 7)] =
        some (PyVal.int 7)) := by decide

theorem processTag_falsy (v : PyVal) (h : pyTruthy v = false) :
    processTag v = Except.ok (PyVal.str "") := by
  match v with
  | .list xs =>
      have hx : xs = [] := by
        cases xs with
        | nil => rfl
        | cons a l => simp [pyTruthy] at h
      subst hx
      rfl
  | .str s => simp [processTag, h]
  | .int n => simp [processTag, h]
  | .bool b => simp [processTag, h]
  | .pyNone => rfl
  | .dict kvs => simp [processTag, h]
  | .eventObj a => simp [pyTruthy] at h

/-- C5 amended: in every record filter_results produces, `tags` is present
exactly when the source record has a `Tag` key, is then always a string
(never null, a list, or nested), and is the empty string when the Tag
value is falsy; `event` is present exactly when the source has an `Event`
key, and is then a string except when the source Event mapping carries a
non-string `info` entry — a null info included — whose raw value is
passed through verbatim. -/
theorem C5_tags_event_schema (iocs out : List PyDict) (r : PyDict)
    (h : filter_results iocs = Except.ok out) (hr : r ∈ out) :
    ∃ ioc ∈ iocs, projectIOC ioc = Except.ok r ∧
      ((ioc.map Prod.fst).Nodup →
        (dictLookup "tags" r = Option.none ↔ "Tag" ∉ ioc.map Prod.fst) ∧
        (dictLookup "event" r = Option.none ↔ "Event" ∉ ioc.map Prod.fst)) ∧
      (∀ t, dictLookup "tags" r = some t → ∃ s, t = PyVal.str s) ∧
      (∀ v, ("Tag", v) ∈ ioc → pyTruthy v = false → (ioc.map Prod.fst).Nodup →
        dictLookup "tags" r = some (PyVal.str "")) ∧
      (∀ t, dictLookup "event" r = some t → (∃ s, t = PyVal.str s) ∨
        ∃ kvs, ("Event", PyVal.dict kvs) ∈ ioc ∧ dictLookup "info" kvs = some t) := by
  obtain ⟨ioc, hioc, hp, _⟩ := filter_results_mem iocs out h r hr
  refine ⟨ioc, hioc, hp, ?_, ?_, ?_, ?_⟩
  · intro hnd
    constructor
    · constructor
      · intro hnone hin
        obtain ⟨t, ht⟩ := projectIOC_present "Tag" (by decide) hnd hin hp
        simp [keyImage] at ht
        rw [ht] at hnone
        cases hnone
      · intro hno
        have := projectIOC_absent "Tag" (by decide) hno hp
        simpa [keyImage] using this
    · constructor
      · intro hnone hin
        obtain ⟨t, ht⟩ := projectIOC_present "Event" (by decide) hnd hin hp
        simp [keyImage] at ht
        rw [ht] at hnone
        cases hnone
      · intro hno
        have := projectIOC_absent "Event" (by decide) hno hp
        simpa [keyImage] using this
  · intro t ht
    exact projectFields_tags_str ioc [] r hp (by intro t2 h2; cases h2) t ht
  · intro v hv hfal hnd
    obtain ⟨t, htr, hlk⟩ := projectFields_field "Tag" (by decide) ioc [] r v hv hnd hp
    simp only [fieldTransform, if_pos] at htr
    rw [processTag_falsy v hfal] at htr
    cases htr
    simpa [keyImage] using hlk
  · intro t ht
    rcases projectFields_event_chr ioc [] r hp t ht with hk | hs | hkvs
    · cases hk
    · exact Or.inl hs
    · exact Or.inr hkvs

/-- Witness for C5 amended at a concrete record carrying a falsy (empty)
Tag list and an Event mapping with a string info. -/
theorem C5_tags_event_schema_witness :
    ∃ ioc ∈ [[("value", PyVal.str "x"), ("Tag", PyVal.list []),
        ("Event", PyVal.dict [("info", PyVal.str "E")])]],
      projectIOC ioc =
        Except.ok [("value", PyVal.str "x"), ("tags", PyVal.str ""),
          ("event", PyVal.str "E")] ∧
      ((ioc.map Prod.fst).Nodup →
        (dictLookup "tags" [("value", PyVal.str "x"), ("tags", PyVal.str ""),
            ("event", PyVal.str "E")] = Option.none ↔ "Tag" ∉ ioc.map Prod.fst) ∧
        (dictLookup "event" [("value", PyVal.str "x"), ("tags", PyVal.str ""),
            ("event", PyVal.str "E")] = Option.none ↔ "Event" ∉ ioc.map Prod.fst)) ∧
      (∀ t, dictLookup "tags" [("value", PyVal.str "x"), ("tags", PyVal.str ""),
          ("event", PyVal.str "E")] = some t → ∃ s, t = PyVal.str s) ∧
      (∀ v, ("Tag", v) ∈ ioc → pyTruthy v = false → (ioc.map Prod.fst).Nodup →
        dictLookup "tags" [("value", PyVal.str "x"), ("tags", PyVal.str ""),
          ("event", PyVal.str "E")] = some (PyVal.str "")) ∧
      (∀ t, dictLookup "event" [("value", PyVal.str "x"), ("tags", PyVal.str ""),
          ("event", PyVal.str "E")] = some t → (∃ s, t = PyVal.str s) ∨
        ∃ kvs, ("Event", PyVal.dict kvs) ∈ ioc ∧ dictLookup "info" kvs = some t) :=
  C5_tags_event_schema
    [[("value", PyVal.str "x"), ("Tag", PyVal.list []),
      ("Event", PyVal.dict [("info", PyVal.str "E")])]]
    [[("value", PyVal.str "x"), ("tags", PyVal.str ""), ("event", PyVal.str "E")]]
    [("value", PyVal.str "x"), ("tags", PyVal.str ""), ("event", PyVal.str "E")]
    (by decide) (by decide)

/-- C6 counterexample: a retained record with no `type` field yields a
NormalizedIOC with no `type` field at all, not one equal to "unknown". -/
theorem C6_counterexample :
    filter_results [[("value", PyVal.str "x")]] =
      Except.ok [[("value", PyVal.str "x")]] ∧
    dictLookup "type" [("value", PyVal.str "x")] = Option.none ∧
    dictLookup "type" [("value", PyVal.str "x")] ≠ some (PyVal.str "unknown") := by
  decide

/-- C6 amended: a retained record whose source has no `type` key produces
a NormalizedIOC with no `type` field; the "unknown" default is applied
only at consumption time, where get_ioc_summary reads such a record's
type as the string "unknown". -/
theorem C6_type_default (iocs out : List PyDict) (r : PyDict)
    (h : filter_results iocs = Except.ok out) (hr : r ∈ out) :
    (∃ ioc ∈ iocs, projectIOC ioc = Except.ok r ∧
      ("type" ∉ ioc.map Prod.fst → dictLookup "type" r = Option.none)) ∧
    (dictLookup "type" r = Option.none → iocType r = PyVal.str "unknown") := by
  obtain ⟨ioc, hioc, hp, _⟩ := filter_results_mem iocs out h r hr
  refine ⟨⟨ioc, hioc, hp, ?_⟩, ?_⟩
  · intro hno
    have := projectIOC_absent "type" (by decide) hno hp
    simpa [keyImage] using this
  · intro hnone
    simp [iocType, hnone]

/-- Witness for C6 amended at a concrete record lacking a type field. -/
theorem C6_type_default_witness :
    (∃ ioc ∈ [[("value", PyVal.str "x")]],
      projectIOC ioc = Except.ok [("value", PyVal.str "x")] ∧
      ("type" ∉ ioc.map Prod.fst →
        dictLookup "type" [("value", PyVal.str "x")] = Option.none)) ∧
    (dictLookup "type" [("value", PyVal.str "x")] = Option.none →
      iocType [("value", PyVal.str "x")] = PyVal.str "unknown") :=
  C6_type_default [[("value", PyVal.str "x")]] [[("value", PyVal.str "x")]]
    [("value", PyVal.str "x")] (by decide) (by decide)

theorem pyStr_str (s : String) : pyStr (PyVal.str s) = s := rfl

theorem asStrs_map_str (ss : List String) : asStrs (ss.map PyVal.str) = Except.ok ss := by
  induction ss with
  | nil => rfl
  | cons s rest ih => simp only [List.map_cons, asStrs, ih]

theorem tagNames_of_forall2 (tags : List PyDict) (names : List String)
    (hf : List.Forall₂ (fun t n => dictLookup "name" t = some (PyVal.str n)) tags names) :
    tagNames (tags.map PyVal.dict) = Except.ok (names.map PyVal.str) := by
  induction hf with
  | nil => rfl
  | cons h1 h2 ih => simp only [List.map_cons, tagNames, tagName, h1, Option.getD_some, ih]

theorem processTag_dicts : ∀ (tags : List PyDict) (names : List String),
    List.Forall₂ (fun t n => dictLookup "name" t = some (PyVal.str n)) tags names →
    processTag (PyVal.list (tags.map PyVal.dict)) =
      Except.ok (PyVal.str (String.intercalate "|" names))
  | [], [], _ => by decide
  | t :: tr, n :: nr, List.Forall₂.cons h1 hrest => by
      have hall := tagNames_of_forall2 (t :: tr) (n :: nr) (List.Forall₂.cons h1 hrest)
      have h2 : asStrs (PyVal.str n :: List.map PyVal.str nr) = Except.ok (n :: nr) := by
        simpa using asStrs_map_str (n :: nr)
      simp only [List.map_cons] at hall
      simp only [List.map_cons, processTag, isDict, if_pos, hall, strJoin, h2]
  | [], _ :: _, hf => nomatch hf
  | _ :: _, [], hf => nomatch hf

theorem processTag_strs (ss : List String) :
    processTag (PyVal.list (ss.map PyVal.str)) =
      Except.ok (PyVal.str (String.intercalate "|" ss)) := by
  cases ss with
  | nil => decide
  | cons s rest =>
      have hmap : List.map pyStr (List.map PyVal.str rest) = rest := by
        induction rest with
        | nil => rfl
        | cons a l ih => simp [pyStr_str, ih]
      simp [processTag, isDict, pyStr_str, hmap]

/-- C7: in a projected record whose Tag field is a list of mappings each
carrying a string `name`, `tags` is those names joined by `|` in order;
when the Tag field is a list of plain strings, `tags` is those strings
joined by `|`. -/
theorem C7_tags_pipe_join (ioc k2 : PyDict) (hnd : (ioc.map Prod.fst).Nodup)
    (h : projectIOC ioc = Except.ok k2) :
    (∀ (tags : List PyDict) (names : List String),
      ("Tag", PyVal.list (tags.map PyVal.dict)) ∈ ioc →
      List.Forall₂ (fun t n => dictLookup "name" t = some (PyVal.str n)) tags names →
      dictLookup "tags" k2 = some (PyVal.str (String.intercalate "|" names))) ∧
    (∀ ss : List String, ("Tag", PyVal.list (ss.map PyVal.str)) ∈ ioc →
      dictLookup "tags" k2 = some (PyVal.str (String.intercalate "|" ss))) := by
  constructor
  · intro tags names hmem hf
    obtain ⟨t, htr, hlk⟩ := projectFields_field "Tag" (by decide) ioc [] k2 _ hmem hnd h
    simp only [fieldTransform, if_pos] at htr
    rw [processTag_dicts tags names hf] at htr
    cases htr
    simpa [keyImage] using hlk
  · intro ss hmem
    obtain ⟨t, htr, hlk⟩ := projectFields_field "Tag" (by decide) ioc [] k2 _ hmem hnd h
    simp only [fieldTransform, if_pos] at htr
    rw [processTag_strs ss] at htr
    cases htr
    simpa [keyImage] using hlk

/-- Witness for C7 at a concrete record with a name-bearing tag list,
matching the spec's scenario. -/
theorem C7_tags_pipe_join_witness :
    (∀ (tags : List PyDict) (names : List String),
      ("Tag", PyVal.list (tags.map PyVal.dict)) ∈
        [("value", PyVal.str "1.2.3.4"),
         ("Tag", PyVal.list [PyVal.dict [("name", PyVal.str "malware")],
            PyVal.dict [("name", PyVal.str "botnet")]])] →
      List.Forall₂ (fun t n => dictLookup "name" t = some (PyVal.str n)) tags names →
      dictLookup "tags" [("value", PyVal.str "1.2.3.4"),
          ("tags", PyVal.str "malware|botnet")] =
        some (PyVal.str (String.intercalate "|" names))) ∧
    (∀ ss : List String,
      ("Tag", PyVal.list (ss.map PyVal.str)) ∈
        [("value", PyVal.str "1.2.3.4"),
         ("Tag", PyVal.list [PyVal.dict [("name", PyVal.str "malware")],
            PyVal.dict [("name", PyVal.str "botnet")]])] →
      dictLookup "tags" [("value", PyVal.str "1.2.3.4"),
          ("tags", PyVal.str "malware|botnet")] =
        some (PyVal.str (String.intercalate "|" ss))) :=
  C7_tags_pipe_join
    [("value", PyVal.str "1.2.3.4"),
     ("Tag", PyVal.list [PyVal.dict [("name", PyVal.str "malware")],
        PyVal.dict [("name", PyVal.str "botnet")]])]
    [("value", PyVal.str "1.2.3.4"), ("tags", PyVal.str "malware|botnet")]
    (by decide) (by decide)

/-- C8: on the empty sequence the summary is total_count 0, empty
type_counts, no sample and the "no IOCs" message, raising no error; on a
non-empty sequence total_count is the length, type_counts maps each
distinct type value (with "unknown" default) to its occurrence count, and
the sample is the first 5 records projected to type, value, event. -/
theorem C8_get_ioc_summary :
    (ioc_summary [] = ⟨0, [], Option.none, "No IOCs found in last 24 hours"⟩ ∧
     get_ioc_summary (Except.ok (PyVal.list [])) =
       Except.ok ⟨0, [], Option.none, "No IOCs found in last 24 hours"⟩) ∧
    ∀ iocs : List PyDict, iocs ≠ [] →
      (ioc_summary iocs).total_count = iocs.length ∧
      (∀ t n, (t, n) ∈ (ioc_summary iocs).type_counts ↔
        t ∈ iocs.map iocType ∧ n = (iocs.map iocType).count t) ∧
      (ioc_summary iocs).sample_iocs = some ((iocs.take 5).map (fun ioc =>
        [("type", (dictLookup "type" ioc).getD (PyVal.str "unknown")),
         ("value", (dictLookup "value" ioc).getD (PyVal.str "N/A")),
         ("event", (dictLookup "event" ioc).getD (PyVal.str ""))])) := by
  refine ⟨⟨by decide, by decide⟩, ?_⟩
  intro iocs hne
  cases iocs with
  | nil => exact absurd rfl hne
  | cons a l =>
      refine ⟨?_, ?_, ?_⟩
      · simp [ioc_summary]
      · intro t n
        simpa [ioc_summary] using typeCounts_mem_iff (a :: l) t n
      · rfl

/-- Witness for C8 at a concrete non-empty input. -/
theorem C8_get_ioc_summary_witness :
    (ioc_summary [[("type", PyVal.str "ip-dst")]]).total_count =
      ([[("type", PyVal.str "ip-dst")]] : List PyDict).length ∧
    (∀ t n, (t, n) ∈ (ioc_summary [[("type", PyVal.str "ip-dst")]]).type_counts ↔
      t ∈ ([[("type", PyVal.str "ip-dst")]] : List PyDict).map iocType ∧
      n = (([[("type", PyVal.str "ip-dst")]] : List PyDict).map iocType).count t) ∧
    (ioc_summary [[("type", PyVal.str "ip-dst")]]).sample_iocs =
      some ((([[("type", PyVal.str "ip-dst")]] : List PyDict).take 5).map (fun ioc =>
        [("type", (dictLookup "type" ioc).getD (PyVal.str "unknown")),
         ("value", (dictLookup "value" ioc).getD (PyVal.str "N/A")),
         ("event", (dictLookup "event" ioc).getD (PyVal.str ""))])) :=
  C8_get_ioc_summary.2 [[("type", PyVal.str "ip-dst")]] (by decide)

theorem jsonCleanKVs_iff (kvs : PyDict) :
    jsonCleanKVs kvs = true ↔ ∀ p ∈ kvs, jsonClean p.2 = true := by
  induction kvs with
  | nil => simp [jsonCleanKVs]
  | cons p rest ih =>
      obtain ⟨k, v⟩ := p
      simp [jsonCleanKVs, ih]

theorem jsonCleanList_map_dict (iocs : List PyDict)
    (h : ∀ ioc ∈ iocs, ∀ p ∈ ioc, jsonClean p.2 = true) :
    jsonClean (PyVal.list (iocs.map PyVal.dict)) = true := by
  induction iocs with
  | nil => decide
  | cons a l ih =>
      have ha : jsonCleanKVs a = true :=
        (jsonCleanKVs_iff a).mpr (h a (List.mem_cons_self _ _))
      have hl : jsonClean (PyVal.list (l.map PyVal.dict)) = true :=
        ih (fun i hi => h i (List.mem_cons_of_mem _ hi))
      simp only [jsonClean, jsonCleanList, List.map_cons] at hl ⊢
      simp [ha, hl]

/-- C9: saving a non-empty sequence of JSON-representable records and
deserializing the written document recovers the saved sequence field for
field. -/
theorem C9_save_roundtrip (search : Except String PyVal) (iocs : List PyDict)
    (fn : Option String) (auto : String)
    (hio : get_recent_iocs search = Except.ok iocs) (hne : iocs ≠ [])
    (hclean : ∀ ioc ∈ iocs, ∀ p ∈ ioc, jsonClean p.2 = true) :
    ∃ doc, (save_iocs_to_file search fn auto).file = some doc ∧
      pyLoad doc = PyVal.list (iocs.map PyVal.dict) := by
  have hemp : iocs.isEmpty = false := by
    cases iocs with
    | nil => exact absurd rfl hne
    | cons a l => rfl
  refine ⟨pyDump (PyVal.list (iocs.map PyVal.dict)), ?_, ?_⟩
  · simp [save_iocs_to_file, hio, hemp]
  · exact pyLoad_pyDump _ (jsonCleanList_map_dict iocs hclean)

/-- Witness for C9 at a concrete one-record sequence. -/
theorem C9_save_roundtrip_witness :
    ∃ doc, (save_iocs_to_file
        (Except.ok (PyVal.dict [("Attribute",
          PyVal.list [PyVal.dict [("value", PyVal.str "x")]])]))
        (some "out.json") "a.json").file = some doc ∧
      pyLoad doc = PyVal.list ([[("value", PyVal.str "x")]].map PyVal.dict) :=
  C9_save_roundtrip _ [[("value", PyVal.str "x")]] _ _
    (by decide) (by decide) (by decide)

/-- C10: with an empty retrieved sequence, save_iocs_to_file returns the
error status object with message "No IOCs found to save", no filename, no
count, and writes no file. -/
theorem C10_save_empty (search : Except String PyVal) (fn : Option String) (auto : String)
    (h : get_recent_iocs search = Except.ok []) :
    save_iocs_to_file search fn auto =
      { status := "error", message := "No IOCs found to save",
        filename := Option.none, count := Option.none, file := Option.none } := by
  simp [save_iocs_to_file, h]

/-- Witness for C10: a falsy raw response yields the empty sequence and
the fixed error status object. -/
theorem C10_save_empty_witness :
    save_iocs_to_file (Except.ok PyVal.pyNone) Option.none
        "misp_iocs_last24h_20251012T000000.json" =
      { status := "error", message := "No IOCs found to save",
        filename := Option.none, count := Option.none, file := Option.none } :=
  C10_save_empty _ _ _ (by decide)
